import Mathlib

/-
Verification development for the Ultimate Fan Trip Solver routing core.

The definitions below are a shallow embedding of the Python sources:
  - trip_solver/solver/driver.py      (binary_search_driving_hours, format_lp_output, run_solver)
  - trip_solver/solver/solver.py      (create_edge_variables, add_tour_constraints,
                                       add_opponent_constraints, solve)
  - trip_solver/util/solver_util.py   (available_driving_time, build_trip_duration_matrix,
                                       add_dummy_to_cost_matrix, build_matchup_matrix,
                                       remove_infeasible_teams)

Modelling conventions:
  - Instants are integers: minutes since an arbitrary epoch, on the UTC clock.
    The event feeds store ISO-8601 UTC timestamps, and the solver only uses
    whole-minute arithmetic (total_seconds() // 60 on timestamps that carry no
    sub-minute component), so minute granularity is exact.
  - The conversion astimezone(ZoneInfo("America/New_York")) is modelled as the
    fixed offset UTC-4 (the zone at its daylight-saving offset).  Day-boundary
    arithmetic is identical under any fixed offset; daylight-saving transitions
    are a wall-calendar aspect outside this embedding.
  - Python dicts are modelled as association lists looked up by first match;
    every dict built below has pairwise distinct keys under the stated
    hypotheses, so first match agrees with the overwrite-on-insert semantics.
  - The external MILP solver (HiGHS via pulp) is modelled by an oracle giving a
    status and a binary assignment per probed driving-hours value, and
    separately by the semantic feasibility of the formulated constraints.
  - The while loop of the binary search is modelled with an explicit fuel
    parameter; fuel at least the initial interval width is proved sufficient.
-/

namespace TripSolver

/-! ### Binary search over driving hours (driver.py, binary_search_driving_hours)

The solver outcome at each probed value is abstracted as an oracle
F : driving hours -> whether the status is LpStatusOptimal. -/

/-- Midpoint probe of the search: middle = left + ceil((right - left) / 2).
For left <= right, ceil((right - left) / 2) = (right - left + 1) / 2 in natural
division. -/
def bsMiddle (left right : ℕ) : ℕ :=
  left + (right - left + 1) / 2

/-- The while loop of binary_search_driving_hours.  State: left, right and the
best recorded feasible value (min_driving_hours, None when never set).  The
source branches on status != optimal first; the branches are the same two.
fuel bounds the number of iterations; fuel at least right - left is proved to
be enough (bsLoop_fuel_irrelevant). -/
def bsLoop (F : ℕ → Bool) : ℕ → ℕ → ℕ → Option ℕ → ℕ × Option ℕ
  | 0, left, _, best => (left, best)
  | fuel + 1, left, right, best =>
    if left = right then (left, best)
    else
      let middle := bsMiddle left right
      if F middle then
        -- feasible: record middle, continue on [left, middle - 1]
        bsLoop F fuel left (middle - 1) (some middle)
      else
        -- not optimal: need a higher allowance, continue on [middle, right]
        bsLoop F fuel middle right best

/-- binary_search_driving_hours: loop from left = 1, right = 24, then re-solve
at the final left and prefer it when optimal; None models the RuntimeError
raised when min_driving_hours was never set.  The paired solution object is
determined by the returned hours, so only the hours are carried. -/
def binary_search_driving_hours (F : ℕ → Bool) : Option ℕ :=
  let r := bsLoop F 23 1 24 none
  if F r.1 then some r.1 else r.2

/-- Feasibility oracle monotone in the driving-hours cap. -/
def MonoOracle (F : ℕ → Bool) : Prop :=
  ∀ a b : ℕ, a ≤ b → F a = true → F b = true

lemma bsMiddle_lt_of_lt {left right : ℕ} (h : left < right) :
    left < bsMiddle left right ∧ bsMiddle left right ≤ right := by
  unfold bsMiddle
  omega

lemma bsLoop_self (F : ℕ → Bool) (fuel left : ℕ) (best : Option ℕ) :
    bsLoop F fuel left left best = (left, best) := by
  cases fuel <;> simp [bsLoop]

/-- Loop invariant for the binary search, under a monotone oracle.  The final
state l = final left (= final right), b = final best, satisfy: l is in range,
everything in [1, l) is infeasible, a recorded best is feasible and equals
l + 1, and an empty best forces l = 24. -/
lemma bsLoop_invariant (F : ℕ → Bool) (hm : MonoOracle F) :
    ∀ fuel left right best,
      left ≤ right → right - left ≤ fuel → 1 ≤ left → right ≤ 24 →
      (∀ k, 1 ≤ k → k < left → F k = false) →
      (∀ m, best = some m → F m = true ∧ m = right + 1 ∧ m ≤ 24) →
      (best = none → right = 24) →
      1 ≤ (bsLoop F fuel left right best).1 ∧
      (bsLoop F fuel left right best).1 ≤ 24 ∧
      (∀ k, 1 ≤ k → k < (bsLoop F fuel left right best).1 → F k = false) ∧
      (∀ m, (bsLoop F fuel left right best).2 = some m →
        F m = true ∧ m = (bsLoop F fuel left right best).1 + 1 ∧ m ≤ 24) ∧
      ((bsLoop F fuel left right best).2 = none →
        (bsLoop F fuel left right best).1 = 24) := by
  intro fuel
  induction fuel with
  | zero =>
    intro left right best hlr hfuel h1 h24 hlow hbest hnone
    have heq : left = right := by omega
    subst heq
    rw [bsLoop_self]
    exact ⟨h1, h24, hlow, fun m hmessage => by
      obtain ⟨hFm, hm1, hm2⟩ := hbest m hmessage
      exact ⟨hFm, by omega, hm2⟩, fun hn => by have := hnone hn; omega⟩
  | succ fuel ih =>
    intro left right best hlr hfuel h1 h24 hlow hbest hnone
    by_cases heq : left = right
    · subst heq
      rw [bsLoop_self]
      exact ⟨h1, by omega, hlow, fun m hmessage => by
        obtain ⟨hFm, hm1, hm2⟩ := hbest m hmessage
        exact ⟨hFm, by omega, hm2⟩, fun hn => by have := hnone hn; omega⟩
    · have hlt : left < right := lt_of_le_of_ne hlr heq
      obtain ⟨hmid1, hmid2⟩ := bsMiddle_lt_of_lt hlt
      cases hF : F (bsMiddle left right) with
      | true =>
        rw [show bsLoop F (fuel + 1) left right best
            = bsLoop F fuel left (bsMiddle left right - 1)
              (some (bsMiddle left right)) by
          simp [bsLoop, heq, hF]]
        refine ih left (bsMiddle left right - 1) (some (bsMiddle left right))
          (by omega) (by omega) h1 (by omega) hlow ?_ ?_
        · intro m hmessage
          have hm : m = bsMiddle left right := by
            injection hmessage with h
            omega
          subst hm
          exact ⟨hF, by omega, by omega⟩
        · intro hcontra
          exact absurd hcontra (by simp)
      | false =>
        rw [show bsLoop F (fuel + 1) left right best
            = bsLoop F fuel (bsMiddle left right) right best by
          simp [bsLoop, heq, hF]]
        refine ih (bsMiddle left right) right best (by omega) (by omega)
          (by omega) h24 ?_ hbest hnone
        intro k hk1 hk2
        cases hFk : F k with
        | false => rfl
        | true =>
          have := hm k (bsMiddle left right) (by omega) hFk
          rw [this] at hF
          exact absurd hF (by simp)

/-- C1: binary_search_driving_hours returns a driving-hours cap H in [1, 24]
that is feasible, with every smaller cap in [1, H) infeasible (so H is the
smallest feasible integer cap, under the monotonicity assumption); it returns
no result (raises) exactly when no cap in [1, 24] is feasible. -/
theorem binary_search_driving_hours_minimal (F : ℕ → Bool) (hm : MonoOracle F) :
    (∀ H, binary_search_driving_hours F = some H →
      1 ≤ H ∧ H ≤ 24 ∧ F H = true ∧ ∀ k, 1 ≤ k → k < H → F k = false) ∧
    (binary_search_driving_hours F = none →
      ∀ k, 1 ≤ k → k ≤ 24 → F k = false) ∧
    ((∀ k, 1 ≤ k → k ≤ 24 → F k = false) →
      binary_search_driving_hours F = none) := by
  have hinv := bsLoop_invariant F hm 23 1 24 none (by omega) (by omega)
    (by omega) (by omega)
    (fun k hk1 hk2 => absurd hk1 (by omega))
    (fun m hmessage => absurd hmessage (by simp))
    (fun _ => rfl)
  obtain ⟨hr1, hr24, hrlow, hrbest, hrnone⟩ := hinv
  set r := bsLoop F 23 1 24 none with hr
  have hmain : (∀ H, binary_search_driving_hours F = some H →
      1 ≤ H ∧ H ≤ 24 ∧ F H = true ∧ ∀ k, 1 ≤ k → k < H → F k = false) ∧
      (binary_search_driving_hours F = none →
        ∀ k, 1 ≤ k → k ≤ 24 → F k = false) := by
    constructor
    · intro H hH
      unfold binary_search_driving_hours at hH
      rw [← hr] at hH
      cases hF : F r.1 with
      | true =>
        rw [if_pos hF] at hH
        injection hH with h
        subst h
        exact ⟨hr1, hr24, hF, hrlow⟩
      | false =>
        rw [if_neg (by simp [hF])] at hH
        obtain ⟨hFm, hm1, hm2⟩ := hrbest H hH
        refine ⟨by omega, hm2, hFm, ?_⟩
        intro k hk1 hk2
        rcases lt_or_ge k r.1 with hcase | hcase
        · exact hrlow k hk1 hcase
        · have hkr : k = r.1 := by omega
          rw [hkr]
          exact hF
    · intro hnone k hk1 hk2
      unfold binary_search_driving_hours at hnone
      rw [← hr] at hnone
      cases hF : F r.1 with
      | true =>
        rw [if_pos hF] at hnone
        exact absurd hnone (by simp)
      | false =>
        rw [if_neg (by simp [hF])] at hnone
        have h24 : r.1 = 24 := hrnone hnone
        rcases lt_or_ge k r.1 with hcase | hcase
        · exact hrlow k hk1 hcase
        · have hkr : k = r.1 := by omega
          rw [hkr]
          exact hF
  refine ⟨hmain.1, hmain.2, ?_⟩
  intro hall
  cases hres : binary_search_driving_hours F with
  | none => rfl
  | some H =>
    obtain ⟨h1, h24, hFH, _⟩ := hmain.1 H hres
    have := hall H h1 h24
    rw [this] at hFH
    exact absurd hFH (by simp)

/-- Closed witness for C1 at the monotone oracle that is feasible from 5 up:
the search returns 5, which is feasible while 4 is not. -/
theorem binary_search_driving_hours_minimal_witness :
    1 ≤ 5 ∧ 5 ≤ 24 ∧ (fun k => decide (5 ≤ k)) 5 = true ∧
      (fun k => decide (5 ≤ k)) 4 = false := by
  obtain ⟨h1, h2, h3, hmin⟩ :=
    (binary_search_driving_hours_minimal (fun k => decide (5 ≤ k))
      (fun a b hab ha => decide_eq_true (le_trans (of_decide_eq_true ha) hab))).1
      5 (by decide)
  exact ⟨h1, h2, h3, hmin 4 (by decide) (by decide)⟩

lemma bsLoop_fuel_irrelevant (F : ℕ → Bool) :
    ∀ fuelA fuelB left right best, left ≤ right →
      right - left ≤ fuelA → right - left ≤ fuelB →
      bsLoop F fuelA left right best = bsLoop F fuelB left right best := by
  intro fuelA
  induction fuelA with
  | zero =>
    intro fuelB left right best hlr hA hB
    have heq : left = right := by omega
    subst heq
    cases fuelB with
    | zero => rfl
    | succ fuelB => simp [bsLoop]
  | succ fuelA ih =>
    intro fuelB left right best hlr hA hB
    by_cases heq : left = right
    · subst heq
      cases fuelB with
      | zero => simp [bsLoop]
      | succ fuelB => simp [bsLoop]
    · have hlt : left < right := lt_of_le_of_ne hlr heq
      obtain ⟨hmid1, hmid2⟩ := bsMiddle_lt_of_lt hlt
      cases fuelB with
      | zero => omega
      | succ fuelB =>
        simp only [bsLoop, if_neg heq]
        by_cases hF : F (bsMiddle left right)
        · simp only [if_pos hF]
          exact ih fuelB left (bsMiddle left right - 1) (some (bsMiddle left right))
            (by omega) (by omega) (by omega)
        · simp only [if_neg hF]
          exact ih fuelB (bsMiddle left right) right best (by omega) (by omega)
            (by omega)

/-- C10: the binary search terminates for every oracle, monotone or not: with
left < right the probed middle satisfies left < middle <= right, and fuel
equal to the interval width right - left always suffices for the loop to
reach left = right and exit (any larger fuel computes the same result). -/
theorem bsLoop_terminates :
    (∀ left right : ℕ, left < right →
      left < bsMiddle left right ∧ bsMiddle left right ≤ right) ∧
    (∀ (F : ℕ → Bool) (fuel left right : ℕ) (best : Option ℕ),
      left ≤ right → right - left ≤ fuel →
      bsLoop F fuel left right best = bsLoop F (right - left) left right best) :=
  ⟨fun _ _ h => bsMiddle_lt_of_lt h,
   fun F fuel left right best hlr hfuel =>
    bsLoop_fuel_irrelevant F fuel (right - left) left right best hlr hfuel
      (le_refl _)⟩

/-- Closed witness for C10: the midpoint of (3, 10) is inside the interval,
and the full search loop gives the same outcome with fuel 100 as with the
interval width 23. -/
theorem bsLoop_terminates_witness :
    (3 < bsMiddle 3 10 ∧ bsMiddle 3 10 ≤ 10) ∧
      bsLoop (fun k => decide (7 ≤ k)) 100 1 24 none
        = bsLoop (fun k => decide (7 ≤ k)) 23 1 24 none :=
  ⟨bsLoop_terminates.1 3 10 (by decide),
   bsLoop_terminates.2 (fun k => decide (7 ≤ k)) 100 1 24 none (by decide)
     (by decide)⟩

/-! ### Data model (models/internal.py, restricted to the fields the solver reads)

The solver code reads event.id, event.time, event.home_team and
event.away_team (team objects with value equality, as pydantic frozen models
compare); venue data only feeds the driving matrices, which enter the solver
as finished lookup tables, so venues are not represented. -/

structure Team where
  name : String
  id : String
deriving DecidableEq, Repr

structure Event where
  id : String
  time : Int
  home_team : Team
  away_team : Team
deriving DecidableEq, Repr

/-- Modelled from the spec: trip_solver/solver/consts.py is absent from the
sources; the spec describes a distinguished dummy node id, a string constant
that never collides with a real event id. -/
def DUMMY_EVENT_ID : String := "dummy"

/-- Modelled from the spec: trip_solver/solver/consts.py is absent from the
sources; the spec names an average event duration, the default event_length
(minutes) of available_driving_time. -/
def AVG_EVENT_LENGTH : Int := 180

/-! ### Driving-time availability (solver_util.py, available_driving_time) -/

/-- Fixed offset, in minutes, modelling astimezone(ZoneInfo("America/New_York"))
at its daylight-saving offset (UTC-4).  Day-boundary arithmetic below is the
same under any fixed offset. -/
def EASTERN_OFFSET : Int := -240

def utcToEastern (t : Int) : Int := t + EASTERN_OFFSET

/-- strip_datetime: truncate an instant (local minutes) to the beginning of
its day. -/
def strip_datetime (t : Int) : Int := 1440 * t.fdiv 1440

/-- available_driving_time: minutes of driving available between two events
under a cap of max_driving_hours_per_day driving hours per day; -1 when
event_1 does not precede event_2.  The Python default event_length =
AVG_EVENT_LENGTH is passed explicitly by the callers below. -/
def available_driving_time (event_1 event_2 : Event)
    (max_driving_hours_per_day : Int) (event_length : Int) : Int :=
  if event_2.time ≤ event_1.time then -1
  else
    let event_1_time := utcToEastern event_1.time
    let event_2_time := utcToEastern event_2.time
    let allowed_start := event_1_time + (event_length + 60)
    let end_of_start_day := strip_datetime allowed_start + 1440
    let start_day_driving_time :=
      min (end_of_start_day - allowed_start) (60 * max_driving_hours_per_day)
    let allowed_end := event_2_time - 60
    let start_of_end_day := strip_datetime allowed_end
    let end_day_driving_time :=
      min (allowed_end - start_of_end_day) (60 * max_driving_hours_per_day)
    let full_days_between := max ((start_of_end_day - end_of_start_day).fdiv 1440) 0
    full_days_between * max_driving_hours_per_day * 60
      + start_day_driving_time + end_day_driving_time

/-- The availability formula in the words of the claim: minutes from the
allowed departure to the end of the departure day capped at 60H, plus 60H for
each full intervening day, plus minutes from the start of the arrival day to
the allowed arrival capped at 60H; departure is the event start plus the
event length plus one hour, arrival is the event start minus one hour, day
boundaries in the reference time zone. -/
def claimed_available_driving_time (event_1 event_2 : Event)
    (h event_length : Int) : Int :=
  let allowed_departure := utcToEastern event_1.time + event_length + 60
  let allowed_arrival := utcToEastern event_2.time - 60
  let departure_day := allowed_departure.fdiv 1440
  let arrival_day := allowed_arrival.fdiv 1440
  min ((departure_day + 1) * 1440 - allowed_departure) (60 * h)
    + 60 * h * max (arrival_day - departure_day - 1) 0
    + min (allowed_arrival - arrival_day * 1440) (60 * h)

/-- C5: for events in chronological order, available_driving_time computes
exactly the claimed three-part formula; for out-of-order pairs it returns -1,
distinct from zero minutes. -/
theorem available_driving_time_spec (event_1 event_2 : Event)
    (h event_length : Int) (_hh : 1 ≤ h) :
    (event_1.time < event_2.time →
      available_driving_time event_1 event_2 h event_length
        = claimed_available_driving_time event_1 event_2 h event_length) ∧
    (event_2.time ≤ event_1.time →
      available_driving_time event_1 event_2 h event_length = -1) := by
  constructor
  · intro hlt
    have hne : ¬ event_2.time ≤ event_1.time := not_le_of_lt hlt
    simp only [available_driving_time, claimed_available_driving_time,
      strip_datetime, if_neg hne]
    set a := utcToEastern event_1.time + (event_length + 60) with ha
    set b := utcToEastern event_2.time - 60 with hb
    have hadef : utcToEastern event_1.time + event_length + 60 = a := by
      rw [ha]; ring
    rw [hadef]
    have h1 : 1440 * a.fdiv 1440 + 1440 - a = (a.fdiv 1440 + 1) * 1440 - a := by
      ring
    have h2 : b - 1440 * b.fdiv 1440 = b - b.fdiv 1440 * 1440 := by ring
    have h3 : 1440 * b.fdiv 1440 - (1440 * a.fdiv 1440 + 1440)
        = 1440 * (b.fdiv 1440 - a.fdiv 1440 - 1) := by ring
    rw [h1, h2, h3, Int.mul_fdiv_cancel_left _ (by norm_num)]
    ring
  · intro hle
    simp [available_driving_time, hle]

/-- Closed witness for C5: two concrete events a day apart, cap 8 hours. -/
theorem available_driving_time_spec_witness :
    available_driving_time ⟨"1", 0, ⟨"A", "10"⟩, ⟨"B", "11"⟩⟩
        ⟨"2", 2880, ⟨"C", "12"⟩, ⟨"D", "13"⟩⟩ 8 180
      = claimed_available_driving_time ⟨"1", 0, ⟨"A", "10"⟩, ⟨"B", "11"⟩⟩
        ⟨"2", 2880, ⟨"C", "12"⟩, ⟨"D", "13"⟩⟩ 8 180 :=
  (available_driving_time_spec _ _ 8 180 (by decide)).1 (by decide)

lemma available_driving_time_mono (event_1 event_2 : Event)
    (event_length : Int) {h h' : Int} (hhh : h ≤ h') :
    available_driving_time event_1 event_2 h event_length
      ≤ available_driving_time event_1 event_2 h' event_length := by
  unfold available_driving_time
  by_cases hle : event_2.time ≤ event_1.time
  · simp [hle]
  · simp only [if_neg hle]
    have h60 : 60 * h ≤ 60 * h' := by omega
    have hmax : (0 : Int) ≤ max ((strip_datetime (utcToEastern event_2.time - 60)
        - (strip_datetime (utcToEastern event_1.time + (event_length + 60))
          + 1440)).fdiv 1440) 0 := le_max_right _ _
    have hmul : max ((strip_datetime (utcToEastern event_2.time - 60)
        - (strip_datetime (utcToEastern event_1.time + (event_length + 60))
          + 1440)).fdiv 1440) 0 * h * 60
        ≤ max ((strip_datetime (utcToEastern event_2.time - 60)
        - (strip_datetime (utcToEastern event_1.time + (event_length + 60))
          + 1440)).fdiv 1440) 0 * h' * 60 := by
      have := mul_le_mul_of_nonneg_left hhh hmax
      omega
    have hmin1 := min_le_min (le_refl (strip_datetime (utcToEastern event_1.time
        + (event_length + 60)) + 1440
        - (utcToEastern event_1.time + (event_length + 60)))) h60
    have hmin2 := min_le_min (le_refl (utcToEastern event_2.time - 60
        - strip_datetime (utcToEastern event_2.time - 60))) h60
    omega

/-! ### Ordered pairs of distinct positions (itertools.permutations(events, 2)) -/

/-- All ordered pairs of entries at distinct positions of a list, as produced
by itertools.permutations(l, 2) (the enumeration order differs, which no dict
content below depends on). -/
def distinctPairs : List α → List (α × α)
  | [] => []
  | a :: rest =>
    rest.map (fun b => (a, b)) ++ rest.map (fun b => (b, a)) ++ distinctPairs rest

lemma mem_of_mem_distinctPairs {l : List α} {p : α × α}
    (h : p ∈ distinctPairs l) : p.1 ∈ l ∧ p.2 ∈ l := by
  induction l with
  | nil => simp [distinctPairs] at h
  | cons a rest ih =>
    simp only [distinctPairs, List.mem_append, List.mem_map] at h
    rcases h with (⟨b, hb, hp⟩ | ⟨b, hb, hp⟩) | h
    · subst hp; exact ⟨List.mem_cons_self a rest, List.mem_cons_of_mem a hb⟩
    · subst hp; exact ⟨List.mem_cons_of_mem a hb, List.mem_cons_self a rest⟩
    · obtain ⟨h1, h2⟩ := ih h
      exact ⟨List.mem_cons_of_mem a h1, List.mem_cons_of_mem a h2⟩

lemma ne_of_mem_distinctPairs {l : List α} (hnd : l.Nodup) {p : α × α}
    (h : p ∈ distinctPairs l) : p.1 ≠ p.2 := by
  induction l with
  | nil => simp [distinctPairs] at h
  | cons a rest ih =>
    rw [List.nodup_cons] at hnd
    simp only [distinctPairs, List.mem_append, List.mem_map] at h
    rcases h with (⟨b, hb, hp⟩ | ⟨b, hb, hp⟩) | h
    · subst hp
      intro hcontra
      cases hcontra
      exact hnd.1 hb
    · subst hp
      intro hcontra
      cases hcontra
      exact hnd.1 hb
    · exact ih hnd.2 h

lemma mem_distinctPairs_of_ne {l : List α} {a b : α}
    (ha : a ∈ l) (hb : b ∈ l) (hne : a ≠ b) : (a, b) ∈ distinctPairs l := by
  induction l with
  | nil => simp at ha
  | cons c rest ih =>
    simp only [distinctPairs, List.mem_append, List.mem_map]
    rcases List.mem_cons.mp ha with hac | har
    · subst hac
      have hbr : b ∈ rest := by
        rcases List.mem_cons.mp hb with hbc | hbr
        · exact absurd hbc.symm hne
        · exact hbr
      exact Or.inl (Or.inl ⟨b, hbr, rfl⟩)
    · rcases List.mem_cons.mp hb with hbc | hbr
      · subst hbc
        exact Or.inl (Or.inr ⟨a, har, rfl⟩)
      · exact Or.inr (ih har hbr)

/-! ### Cost matrices (solver_util.py)

A CostMatrix dict-of-dicts is modelled as an association list from ordered id
pairs to integer costs, looked up by first match; every matrix built below
has pairwise distinct keys under the nodup hypotheses of the theorems, so
first match agrees with dict semantics. -/

abbrev CostMat := List ((String × String) × Int)

def matLookup : CostMat → String × String → Option Int
  | [], _ => none
  | (k, v) :: rest, key => if key = k then some v else matLookup rest key

lemma matLookup_eq_some {m : CostMat} {k : String × String} {v : Int}
    (hmem : (k, v) ∈ m) (huniq : ∀ v', (k, v') ∈ m → v' = v) :
    matLookup m k = some v := by
  induction m with
  | nil => simp at hmem
  | cons head rest ih =>
    obtain ⟨k', v'⟩ := head
    by_cases hk : k = k'
    · subst hk
      have hstep : matLookup ((k, v') :: rest) k = some v' := by
        simp [matLookup]
      rw [hstep, huniq v' (List.mem_cons_self _ _)]
    · simp only [matLookup, if_neg hk]
      refine ih ?_ ?_
      · rcases List.mem_cons.mp hmem with hcontra | h
        · exact absurd (congrArg Prod.fst hcontra) hk
        · exact h
      · intro w hw
        exact huniq w (List.mem_cons_of_mem _ hw)

lemma matLookup_eq_none {m : CostMat} {k : String × String}
    (h : ∀ v, (k, v) ∉ m) : matLookup m k = none := by
  induction m with
  | nil => rfl
  | cons head rest ih =>
    obtain ⟨k', v'⟩ := head
    by_cases hk : k = k'
    · subst hk
      exact absurd (List.mem_cons_self _ _) (h v')
    · simp only [matLookup, if_neg hk]
      exact ih fun v hv => h v (List.mem_cons_of_mem _ hv)

/-- add_dummy_to_cost_matrix: zero-cost edges between the dummy event and
every real event (the Python branch that first creates a missing row writes
the same (event, dummy) entry the following line writes). -/
def add_dummy_to_cost_matrix (cost_matrix : CostMat) (events : List Event) :
    CostMat :=
  cost_matrix ++ events.flatMap
    (fun e => [((e.id, DUMMY_EVENT_ID), 0), ((DUMMY_EVENT_ID, e.id), 0)])

/-- build_trip_duration_matrix: for pairs in chronological order, the
calendar-day difference of the two timestamps as stored (their UTC dates:
the day index of the raw instant); out-of-order pairs are skipped. -/
def build_trip_duration_matrix (events : List Event) (include_dummy : Bool) :
    CostMat :=
  let base := (distinctPairs events).filterMap fun p =>
    if p.2.time ≤ p.1.time then none
    else some ((p.1.id, p.2.id), p.2.time.fdiv 1440 - p.1.time.fdiv 1440)
  if include_dummy then add_dummy_to_cost_matrix base events else base

/-- The day difference in the words of the claim: calendar-day difference
after converting both timestamps to the fixed reference time zone. -/
def claimed_reference_zone_day_difference (t1 t2 : Int) : Int :=
  (utcToEastern t2).fdiv 1440 - (utcToEastern t1).fdiv 1440

/-- C2, counterexample: two events at 01:00 UTC and 12:00 UTC of the same UTC
day.  The matrix the solver builds stores day difference 0 (raw UTC dates),
but the day difference after conversion to the reference time zone is 1: the
builder used by the solver does not convert time zones, contradicting the
claim. -/
theorem build_trip_duration_matrix_counterexample :
    matLookup (build_trip_duration_matrix
        [⟨"1", 60, ⟨"A", "10"⟩, ⟨"B", "11"⟩⟩,
         ⟨"2", 720, ⟨"C", "12"⟩, ⟨"D", "13"⟩⟩] true) ("1", "2") = some 0
    ∧ claimed_reference_zone_day_difference 60 720 = 1
    ∧ matLookup (build_trip_duration_matrix
        [⟨"1", 60, ⟨"A", "10"⟩, ⟨"B", "11"⟩⟩,
         ⟨"2", 720, ⟨"C", "12"⟩, ⟨"D", "13"⟩⟩] true) ("1", "2")
      ≠ some (claimed_reference_zone_day_difference 60 720) := by
  refine ⟨by decide, by decide, by decide⟩

lemma eq_of_mem_of_id_eq {events : List Event}
    (hnd : (events.map Event.id).Nodup) {a b : Event}
    (ha : a ∈ events) (hb : b ∈ events) (hid : a.id = b.id) : a = b :=
  List.inj_on_of_nodup_map hnd ha hb hid

/-- Entry characterization used for the amended C2 theorem. -/
lemma mem_build_trip_duration_matrix {events : List Event}
    (hnd : (events.map Event.id).Nodup)
    (hdummy : ∀ e ∈ events, e.id ≠ DUMMY_EVENT_ID)
    {e_i e_j : Event} (hi : e_i ∈ events) (hj : e_j ∈ events) {v : Int} :
    (((e_i.id, e_j.id), v) ∈ build_trip_duration_matrix events true)
      ↔ (e_i.time < e_j.time ∧ v = e_j.time.fdiv 1440 - e_i.time.fdiv 1440) := by
  have hne : e_i.id ≠ DUMMY_EVENT_ID := hdummy e_i hi
  have hne2 : e_j.id ≠ DUMMY_EVENT_ID := hdummy e_j hj
  simp only [build_trip_duration_matrix, if_pos, add_dummy_to_cost_matrix,
    List.mem_append, List.mem_filterMap, List.mem_flatMap]
  constructor
  · rintro (⟨p, hp, hsome⟩ | ⟨e, _, hmem⟩)
    · by_cases hord : p.2.time ≤ p.1.time
      · simp [hord] at hsome
      · rw [if_neg hord, Option.some.injEq, Prod.mk.injEq, Prod.mk.injEq]
          at hsome
        obtain ⟨⟨hid1, hid2⟩, hv⟩ := hsome
        obtain ⟨hp1, hp2⟩ := mem_of_mem_distinctPairs hp
        have he1 : p.1 = e_i := eq_of_mem_of_id_eq hnd hp1 hi hid1
        have he2 : p.2 = e_j := eq_of_mem_of_id_eq hnd hp2 hj hid2
        rw [he1, he2] at hord hv
        exact ⟨lt_of_not_le hord, hv.symm⟩
    · simp only [List.mem_cons, List.not_mem_nil, or_false] at hmem
      rcases hmem with h | h
      · have h2 : e_j.id = DUMMY_EVENT_ID := by
          have := congrArg (fun q => q.1.2) h
          simpa using this
        exact absurd h2 hne2
      · have h2 : e_i.id = DUMMY_EVENT_ID := by
          have := congrArg (fun q => q.1.1) h
          simpa using this
        exact absurd h2 hne
  · rintro ⟨hlt, hv⟩
    refine Or.inl ⟨(e_i, e_j), ?_, ?_⟩
    · refine mem_distinctPairs_of_ne hi hj ?_
      intro hcontra
      rw [hcontra] at hlt
      exact lt_irrefl _ hlt
    · simp [not_le_of_lt hlt, hv]

/-- C2, amended: in the trip-duration matrix the solver uses, every ordered
pair of events in chronological order has exactly the raw calendar-day
difference of the stored (UTC) timestamps, with no conversion to the
reference time zone, and pairs with time(i) >= time(j) have no entry. -/
theorem build_trip_duration_matrix_amended {events : List Event}
    (hnd : (events.map Event.id).Nodup)
    (hdummy : ∀ e ∈ events, e.id ≠ DUMMY_EVENT_ID)
    (e_i e_j : Event) (hi : e_i ∈ events) (hj : e_j ∈ events) :
    (e_i.time < e_j.time →
      matLookup (build_trip_duration_matrix events true) (e_i.id, e_j.id)
        = some (e_j.time.fdiv 1440 - e_i.time.fdiv 1440)) ∧
    (e_j.time ≤ e_i.time →
      matLookup (build_trip_duration_matrix events true) (e_i.id, e_j.id)
        = none) := by
  constructor
  · intro hlt
    refine matLookup_eq_some ?_ ?_
    · exact (mem_build_trip_duration_matrix hnd hdummy hi hj).mpr ⟨hlt, rfl⟩
    · intro v' hv'
      exact ((mem_build_trip_duration_matrix hnd hdummy hi hj).mp hv').2
  · intro hge
    refine matLookup_eq_none ?_
    intro v hv
    have := ((mem_build_trip_duration_matrix hnd hdummy hi hj).mp hv).1
    omega

/-- Closed witness for the amended C2 at two concrete events. -/
theorem build_trip_duration_matrix_amended_witness :
    matLookup (build_trip_duration_matrix
        [⟨"1", 60, ⟨"A", "10"⟩, ⟨"B", "11"⟩⟩,
         ⟨"2", 2880, ⟨"C", "12"⟩, ⟨"D", "13"⟩⟩] true) ("1", "2") = some 2 :=
  (@build_trip_duration_matrix_amended
      [⟨"1", 60, ⟨"A", "10"⟩, ⟨"B", "11"⟩⟩,
       ⟨"2", 2880, ⟨"C", "12"⟩, ⟨"D", "13"⟩⟩]
    (by decide) (by decide)
    ⟨"1", 60, ⟨"A", "10"⟩, ⟨"B", "11"⟩⟩
    ⟨"2", 2880, ⟨"C", "12"⟩, ⟨"D", "13"⟩⟩
    (by decide) (by decide)).1 (by decide)

/-! ### Edge variables (solver.py, create_edge_variables)

The LpVariable object attached to a dict key is determined by that key (its
name is x_from_to), so the variable dict is modelled by its key list.  The
driving-duration matrix reaches create_edge_variables as a finished lookup
table defined on all ordered pairs of distinct events (run_solver builds it
that way), so it is modelled as a total function on id pairs, in seconds. -/

/-- math.ceil(d / 60) on an exact integer quotient. -/
def ceilDiv60 (d : Int) : Int := -((-d).fdiv 60)

lemma ceilDiv60_nonneg {d : Int} (hd : 0 ≤ d) : 0 ≤ ceilDiv60 d := by
  unfold ceilDiv60
  rw [Int.fdiv_eq_ediv _ (by norm_num)]
  omega

/-- create_edge_variables: one key per ordered pair of distinct events whose
required driving duration, rounded up to the minute, fits the availability;
dummy-to-event and event-to-dummy keys are added unconditionally. -/
def create_edge_variables (events : List Event)
    (max_driving_hours_per_day : Int)
    (driving_duration_matrix : String → String → Int) :
    List (String × String) :=
  ((distinctPairs events).filterMap fun p =>
    if ceilDiv60 (driving_duration_matrix p.1.id p.2.id)
        ≤ available_driving_time p.1 p.2 max_driving_hours_per_day
            AVG_EVENT_LENGTH
    then some (p.1.id, p.2.id) else none)
  ++ events.flatMap (fun e => [(DUMMY_EVENT_ID, e.id), (e.id, DUMMY_EVENT_ID)])

lemma mem_create_edge_variables_iff {events : List Event} {h : Int}
    {dur : String → String → Int} {k : String × String} :
    k ∈ create_edge_variables events h dur ↔
      (∃ p ∈ distinctPairs events, k = (p.1.id, p.2.id) ∧
        ceilDiv60 (dur p.1.id p.2.id)
          ≤ available_driving_time p.1 p.2 h AVG_EVENT_LENGTH) ∨
      (∃ e ∈ events, k = (DUMMY_EVENT_ID, e.id) ∨ k = (e.id, DUMMY_EVENT_ID)) := by
  simp only [create_edge_variables, List.mem_append, List.mem_filterMap,
    List.mem_flatMap]
  constructor
  · rintro (⟨p, hp, hsome⟩ | ⟨e, he, hmem⟩)
    · by_cases hc : ceilDiv60 (dur p.1.id p.2.id)
          ≤ available_driving_time p.1 p.2 h AVG_EVENT_LENGTH
      · rw [if_pos hc, Option.some.injEq] at hsome
        exact Or.inl ⟨p, hp, hsome.symm, hc⟩
      · rw [if_neg hc] at hsome
        exact absurd hsome (by simp)
    · rcases List.mem_cons.mp hmem with h0 | h0
      · exact Or.inr ⟨e, he, Or.inl h0⟩
      · exact Or.inr ⟨e, he, Or.inr (List.mem_singleton.mp h0)⟩
  · rintro (⟨p, hp, hk, hc⟩ | ⟨e, he, hk⟩)
    · exact Or.inl ⟨p, hp, by rw [if_pos hc, hk]⟩
    · refine Or.inr ⟨e, he, ?_⟩
      rcases hk with hk | hk
      · rw [hk]; exact List.mem_cons_self _ _
      · rw [hk]; exact List.mem_cons_of_mem _ (List.mem_singleton.mpr rfl)

/-- A non-negative rounded-up duration fitting the availability forces
chronological order (availability is -1 otherwise). -/
lemma time_lt_of_ceil_le_avail {e1 e2 : Event} {h len d : Int} (hd : 0 ≤ d)
    (hc : ceilDiv60 d ≤ available_driving_time e1 e2 h len) :
    e1.time < e2.time := by
  by_contra hcontra
  have hle : e2.time ≤ e1.time := le_of_not_lt hcontra
  have hav : available_driving_time e1 e2 h len = -1 := by
    simp [available_driving_time, hle]
  rw [hav] at hc
  have := ceilDiv60_nonneg hd
  omega

/-- C9: create_edge_variables never creates a self-loop or a dummy-to-dummy
variable, always creates both dummy edges for every event, and for distinct
real events creates at most one direction: the chronologically earlier to the
later, and only when driving-feasible. -/
theorem create_edge_variables_invariants (events : List Event) (h : Int)
    (dur : String → String → Int)
    (hnd : (events.map Event.id).Nodup)
    (hdummy : ∀ e ∈ events, e.id ≠ DUMMY_EVENT_ID)
    (hdur : ∀ i j, 0 ≤ dur i j) :
    (∀ v, (v, v) ∉ create_edge_variables events h dur) ∧
    ((DUMMY_EVENT_ID, DUMMY_EVENT_ID) ∉ create_edge_variables events h dur) ∧
    (∀ e ∈ events, (DUMMY_EVENT_ID, e.id) ∈ create_edge_variables events h dur
      ∧ (e.id, DUMMY_EVENT_ID) ∈ create_edge_variables events h dur) ∧
    (∀ e1 e2 : Event, e1 ∈ events → e2 ∈ events →
      (e1.id, e2.id) ∈ create_edge_variables events h dur →
      e1.time < e2.time ∧ ceilDiv60 (dur e1.id e2.id)
        ≤ available_driving_time e1 e2 h AVG_EVENT_LENGTH) ∧
    (∀ e1 e2 : Event, e1 ∈ events → e2 ∈ events →
      ¬((e1.id, e2.id) ∈ create_edge_variables events h dur
        ∧ (e2.id, e1.id) ∈ create_edge_variables events h dur)) := by
  have hndev : events.Nodup := List.Nodup.of_map Event.id hnd
  have hdir : ∀ e1 e2 : Event, e1 ∈ events → e2 ∈ events →
      (e1.id, e2.id) ∈ create_edge_variables events h dur →
      e1.time < e2.time ∧ ceilDiv60 (dur e1.id e2.id)
        ≤ available_driving_time e1 e2 h AVG_EVENT_LENGTH := by
    intro e1 e2 h1 h2 hmem
    rcases mem_create_edge_variables_iff.mp hmem with ⟨p, hp, hk, hc⟩ | ⟨e, he, hk⟩
    · have hid1 : p.1.id = e1.id := (congrArg Prod.fst hk).symm
      have hid2 : p.2.id = e2.id := (congrArg Prod.snd hk).symm
      obtain ⟨hp1, hp2⟩ := mem_of_mem_distinctPairs hp
      have he1 : p.1 = e1 := eq_of_mem_of_id_eq hnd hp1 h1 hid1
      have he2 : p.2 = e2 := eq_of_mem_of_id_eq hnd hp2 h2 hid2
      rw [he1, he2] at hc
      exact ⟨time_lt_of_ceil_le_avail (hdur e1.id e2.id) hc, hc⟩
    · rcases hk with hk | hk
      · exact absurd (congrArg Prod.fst hk) (hdummy e1 h1)
      · exact absurd (congrArg Prod.snd hk) (hdummy e2 h2)
  refine ⟨?_, ?_, ?_, hdir, ?_⟩
  · intro v hv
    rcases mem_create_edge_variables_iff.mp hv with ⟨p, hp, hk, _⟩ | ⟨e, he, hk⟩
    · have hne := ne_of_mem_distinctPairs hndev hp
      have hid : p.1.id = p.2.id := by
        have h1 : p.1.id = v := (congrArg Prod.fst hk).symm
        have h2 : p.2.id = v := (congrArg Prod.snd hk).symm
        rw [h1, h2]
      obtain ⟨hp1, hp2⟩ := mem_of_mem_distinctPairs hp
      exact hne (eq_of_mem_of_id_eq hnd hp1 hp2 hid)
    · rcases hk with hk | hk
      · have h1 : v = DUMMY_EVENT_ID := congrArg Prod.fst hk
        have h2 : v = e.id := congrArg Prod.snd hk
        exact hdummy e he (h2 ▸ h1 ▸ rfl)
      · have h1 : v = e.id := congrArg Prod.fst hk
        have h2 : v = DUMMY_EVENT_ID := congrArg Prod.snd hk
        exact hdummy e he (h1 ▸ h2 ▸ rfl)
  · intro hv
    rcases mem_create_edge_variables_iff.mp hv with ⟨p, hp, hk, _⟩ | ⟨e, he, hk⟩
    · obtain ⟨hp1, _⟩ := mem_of_mem_distinctPairs hp
      exact hdummy p.1 hp1 ((congrArg Prod.fst hk).symm)
    · rcases hk with hk | hk
      · exact hdummy e he ((congrArg Prod.snd hk).symm)
      · exact hdummy e he ((congrArg Prod.fst hk).symm)
  · intro e he
    constructor
    · exact mem_create_edge_variables_iff.mpr (Or.inr ⟨e, he, Or.inl rfl⟩)
    · exact mem_create_edge_variables_iff.mpr (Or.inr ⟨e, he, Or.inr rfl⟩)
  · intro e1 e2 h1 h2 ⟨hm1, hm2⟩
    have ht1 := (hdir e1 e2 h1 h2 hm1).1
    have ht2 := (hdir e2 e1 h2 h1 hm2).1
    omega

/-- Closed witness for C9 at two concrete events: no dummy loop, the dummy
edge to the first event exists, the forward edge exists and the backward edge
does not. -/
theorem create_edge_variables_invariants_witness :
    ((DUMMY_EVENT_ID, DUMMY_EVENT_ID) ∉ create_edge_variables
      [⟨"1", 0, ⟨"A", "10"⟩, ⟨"B", "11"⟩⟩,
       ⟨"2", 2880, ⟨"C", "12"⟩, ⟨"D", "13"⟩⟩] 24 (fun _ _ => 0)) ∧
    ((DUMMY_EVENT_ID, "1") ∈ create_edge_variables
      [⟨"1", 0, ⟨"A", "10"⟩, ⟨"B", "11"⟩⟩,
       ⟨"2", 2880, ⟨"C", "12"⟩, ⟨"D", "13"⟩⟩] 24 (fun _ _ => 0)) ∧
    ¬(("1", "2") ∈ create_edge_variables
      [⟨"1", 0, ⟨"A", "10"⟩, ⟨"B", "11"⟩⟩,
       ⟨"2", 2880, ⟨"C", "12"⟩, ⟨"D", "13"⟩⟩] 24 (fun _ _ => 0)
      ∧ ("2", "1") ∈ create_edge_variables
      [⟨"1", 0, ⟨"A", "10"⟩, ⟨"B", "11"⟩⟩,
       ⟨"2", 2880, ⟨"C", "12"⟩, ⟨"D", "13"⟩⟩] 24 (fun _ _ => 0)) := by
  obtain ⟨hloop, hdd, hdums, hfwd, honce⟩ := create_edge_variables_invariants
    [⟨"1", 0, ⟨"A", "10"⟩, ⟨"B", "11"⟩⟩,
     ⟨"2", 2880, ⟨"C", "12"⟩, ⟨"D", "13"⟩⟩] 24 (fun _ _ => 0)
    (by decide) (by decide) (fun _ _ => le_refl 0)
  exact ⟨hdd, (hdums ⟨"1", 0, ⟨"A", "10"⟩, ⟨"B", "11"⟩⟩ (by decide)).1,
    honce ⟨"1", 0, ⟨"A", "10"⟩, ⟨"B", "11"⟩⟩
      ⟨"2", 2880, ⟨"C", "12"⟩, ⟨"D", "13"⟩⟩ (by decide) (by decide)⟩

/-! ### Constraint semantics (solver.py, add_tour_constraints,
add_opponent_constraints, solve)

A pulp constraint is modelled by its left-hand side evaluated under a 0/1
assignment of the edge variables, a comparison sense and a right-hand side;
edge_variables.get(k, 0) is edgeVal: the assigned value when the key exists,
the constant 0 otherwise. -/

inductive CmpSense
  | le
  | ge
  | eq
deriving DecidableEq, Repr

structure LinConstraint where
  name : String
  lhs : ((String × String) → Bool) → Int
  sense : CmpSense
  rhs : Int

def LinConstraint.holds (c : LinConstraint) (sel : (String × String) → Bool) :
    Prop :=
  match c.sense with
  | .le => c.lhs sel ≤ c.rhs
  | .ge => c.lhs sel ≥ c.rhs
  | .eq => c.lhs sel = c.rhs

/-- edge_variables.get(k, 0) under a 0/1 assignment. -/
def edgeVal (keys : List (String × String)) (sel : (String × String) → Bool)
    (k : String × String) : Int :=
  if k ∈ keys then (if sel k then 1 else 0) else 0

def outLhs (keys : List (String × String)) (event_ids : List String)
    (i : String) (sel : (String × String) → Bool) : Int :=
  (event_ids.map fun j => edgeVal keys sel (i, j)).sum

def inLhs (keys : List (String × String)) (event_ids : List String)
    (i : String) (sel : (String × String) → Bool) : Int :=
  (event_ids.map fun j => edgeVal keys sel (j, i)).sum

/-- add_tour_constraints: out-degree and in-degree at most one, and equal
out and in degree, for every event id and the dummy. -/
def add_tour_constraints (events : List Event)
    (keys : List (String × String)) : List LinConstraint :=
  let event_ids := events.map Event.id ++ [DUMMY_EVENT_ID]
  (event_ids.flatMap fun i =>
    [⟨"out_degree_" ++ i, outLhs keys event_ids i, .le, 1⟩,
     ⟨"in_degree_" ++ i, inLhs keys event_ids i, .le, 1⟩])
  ++ event_ids.map fun i =>
    ⟨"equal_degree_" ++ i,
     fun sel => outLhs keys event_ids i sel - inLhs keys event_ids i sel,
     .eq, 0⟩

/-! ### Matchup matrix (solver_util.py, build_matchup_matrix) -/

abbrev MatchupMatrix := List (String × List (String × Int))

def assocLookup {α : Type} : List (String × α) → String → Option α
  | [], _ => none
  | (k, v) :: rest, key => if key = k then some v else assocLookup rest key

/-- matchup_matrix[event_id].get(team_id, 0); a missing outer row reads as 0
(the callers below only query rows they built). -/
def matchupGet (mm : MatchupMatrix) (event_id team_id : String) : Int :=
  match assocLookup mm event_id with
  | none => 0
  | some inner => (assocLookup inner team_id).getD 0

def add_dummy_to_matchup_matrix (mm : MatchupMatrix) : MatchupMatrix :=
  mm ++ [(DUMMY_EVENT_ID, [])]

/-- build_matchup_matrix: both participating teams of every event marked 1. -/
def build_matchup_matrix (events : List Event) (include_dummy : Bool) :
    MatchupMatrix :=
  let ret := events.map fun e => (e.id, [(e.home_team.id, 1), (e.away_team.id, 1)])
  if include_dummy then add_dummy_to_matchup_matrix ret else ret

/-- Left-hand side of the coverage constraint of one team: selected real
edges contribute the matchup value of their destination (only where the edge
variable exists), and selected dummy-to-event edges contribute the matchup
value of their destination. -/
def oppLhs (events : List Event) (keys : List (String × String))
    (mm : MatchupMatrix) (team : Team) (sel : (String × String) → Bool) : Int :=
  ((distinctPairs events).map fun p =>
    if (p.1.id, p.2.id) ∈ keys then
      (if sel (p.1.id, p.2.id) then 1 else 0) * matchupGet mm p.2.id team.id
    else 0).sum
  + (events.map fun e =>
      (if sel (DUMMY_EVENT_ID, e.id) then 1 else 0)
        * matchupGet mm e.id team.id).sum

/-- add_opponent_constraints: for every interested team, its coverage sum is
at least one. -/
def add_opponent_constraints (events : List Event)
    (keys : List (String × String)) (mm : MatchupMatrix)
    (interested_teams : List Team) : List LinConstraint :=
  interested_teams.map fun team =>
    ⟨"opponent_" ++ team.id, oppLhs events keys mm team, .ge, 1⟩

/-- The formulated model of solve: edge variables plus tour and coverage
constraints (the objective does not affect feasibility). -/
structure LpModel where
  vars : List (String × String)
  constraints : List LinConstraint

def formulate (events : List Event) (max_driving_hours_per_day : Int)
    (dur : String → String → Int) (mm : MatchupMatrix)
    (interested_teams : List Team) : LpModel :=
  let keys := create_edge_variables events max_driving_hours_per_day dur
  ⟨keys, add_tour_constraints events keys
    ++ add_opponent_constraints events keys mm interested_teams⟩

/-- A model is feasible when some 0/1 assignment satisfies every constraint;
for these finite minimization models with non-negative objective this is
exactly when the MILP solver reports an optimal solution. -/
def modelFeasible (m : LpModel) : Prop :=
  ∃ sel, ∀ c ∈ m.constraints, c.holds sel

lemma create_edge_variables_subset (events : List Event)
    (dur : String → String → Int) {H H' : Int} (hHH : H ≤ H') :
    ∀ k ∈ create_edge_variables events H dur,
      k ∈ create_edge_variables events H' dur := by
  intro k hk
  rcases mem_create_edge_variables_iff.mp hk with ⟨p, hp, hkp, hc⟩ | hdum
  · refine mem_create_edge_variables_iff.mpr (Or.inl ⟨p, hp, hkp, ?_⟩)
    exact le_trans hc (available_driving_time_mono p.1 p.2 AVG_EVENT_LENGTH hHH)
  · exact mem_create_edge_variables_iff.mpr (Or.inr hdum)

/-- Restricting a selection to the smaller key set preserves every
edge_variables.get value. -/
lemma edgeVal_restrict {keysA keysB : List (String × String)}
    (hsub : ∀ k ∈ keysA, k ∈ keysB) (sel : (String × String) → Bool)
    (k : String × String) :
    edgeVal keysB (fun q => sel q && decide (q ∈ keysA)) k
      = edgeVal keysA sel k := by
  unfold edgeVal
  by_cases hk : k ∈ keysA
  · rw [if_pos (hsub k hk), if_pos hk]
    simp [hk]
  · rw [if_neg hk]
    by_cases hkB : k ∈ keysB
    · rw [if_pos hkB]
      simp [hk]
    · rw [if_neg hkB]

lemma outLhs_restrict {keysA keysB : List (String × String)}
    (hsub : ∀ k ∈ keysA, k ∈ keysB) (event_ids : List String) (i : String)
    (sel : (String × String) → Bool) :
    outLhs keysB event_ids i (fun q => sel q && decide (q ∈ keysA))
      = outLhs keysA event_ids i sel := by
  unfold outLhs
  congr 1
  exact List.map_congr_left fun j _ => edgeVal_restrict hsub sel (i, j)

lemma inLhs_restrict {keysA keysB : List (String × String)}
    (hsub : ∀ k ∈ keysA, k ∈ keysB) (event_ids : List String) (i : String)
    (sel : (String × String) → Bool) :
    inLhs keysB event_ids i (fun q => sel q && decide (q ∈ keysA))
      = inLhs keysA event_ids i sel := by
  unfold inLhs
  congr 1
  exact List.map_congr_left fun j _ => edgeVal_restrict hsub sel (j, i)

lemma oppLhs_restrict {events : List Event}
    {keysA keysB : List (String × String)}
    (hsub : ∀ k ∈ keysA, k ∈ keysB)
    (hdum : ∀ e ∈ events, (DUMMY_EVENT_ID, e.id) ∈ keysA)
    (mm : MatchupMatrix) (team : Team) (sel : (String × String) → Bool) :
    oppLhs events keysB mm team (fun q => sel q && decide (q ∈ keysA))
      = oppLhs events keysA mm team sel := by
  unfold oppLhs
  congr 1
  · congr 1
    refine List.map_congr_left fun p _ => ?_
    by_cases hk : (p.1.id, p.2.id) ∈ keysA
    · rw [if_pos (hsub _ hk), if_pos hk]
      simp [hk]
    · rw [if_neg hk]
      by_cases hkB : (p.1.id, p.2.id) ∈ keysB
      · rw [if_pos hkB]
        simp [hk]
      · rw [if_neg hkB]
  · congr 1
    refine List.map_congr_left fun e he => ?_
    have := hdum e he
    simp [this]

/-- C3: availability is monotone in the driving-hours cap, hence the edge
variables created at cap H are a subset of those created at cap H' >= H, and
feasibility of the formulated model is monotone non-decreasing in the cap. -/
theorem driving_hours_monotonicity (events : List Event)
    (dur : String → String → Int) (mm : MatchupMatrix)
    (interested_teams : List Team) (event_length : Int)
    {H H' : Int} (hHH : H ≤ H') :
    (∀ e1 e2 : Event, available_driving_time e1 e2 H event_length
      ≤ available_driving_time e1 e2 H' event_length) ∧
    (∀ k ∈ create_edge_variables events H dur,
      k ∈ create_edge_variables events H' dur) ∧
    (modelFeasible (formulate events H dur mm interested_teams) →
      modelFeasible (formulate events H' dur mm interested_teams)) := by
  have hsub := create_edge_variables_subset events dur hHH
  refine ⟨fun e1 e2 => available_driving_time_mono e1 e2 event_length hHH,
    hsub, ?_⟩
  rintro ⟨sel, hsel⟩
  have hdum : ∀ e ∈ events,
      (DUMMY_EVENT_ID, e.id) ∈ create_edge_variables events H dur :=
    fun e he => mem_create_edge_variables_iff.mpr (Or.inr ⟨e, he, Or.inl rfl⟩)
  refine ⟨fun q => sel q && decide (q ∈ create_edge_variables events H dur), ?_⟩
  intro c hc
  simp only [formulate, List.mem_append] at hc hsel
  rcases hc with hc | hc
  · simp only [add_tour_constraints, List.mem_append, List.mem_flatMap,
      List.mem_map] at hc
    rcases hc with ⟨i, hi, hci⟩ | ⟨i, hi, hci⟩
    · rcases List.mem_cons.mp hci with hce | hce
      · subst hce
        have h0 : LinConstraint.holds
            ⟨"out_degree_" ++ i,
             outLhs (create_edge_variables events H dur)
               (events.map Event.id ++ [DUMMY_EVENT_ID]) i, .le, 1⟩ sel := by
          refine hsel _ (Or.inl ?_)
          simp only [add_tour_constraints, List.mem_append, List.mem_flatMap,
            List.mem_map]
          exact Or.inl ⟨i, hi, List.mem_cons_self _ _⟩
        simp only [LinConstraint.holds] at h0 ⊢
        rw [outLhs_restrict hsub]
        exact h0
      · have hce2 := List.mem_singleton.mp hce
        subst hce2
        have h0 : LinConstraint.holds
            ⟨"in_degree_" ++ i,
             inLhs (create_edge_variables events H dur)
               (events.map Event.id ++ [DUMMY_EVENT_ID]) i, .le, 1⟩ sel := by
          refine hsel _ (Or.inl ?_)
          simp only [add_tour_constraints, List.mem_append, List.mem_flatMap,
            List.mem_map]
          exact Or.inl ⟨i, hi, List.mem_cons_of_mem _ (List.mem_singleton.mpr rfl)⟩
        simp only [LinConstraint.holds] at h0 ⊢
        rw [inLhs_restrict hsub]
        exact h0
    · subst hci
      have h0 : LinConstraint.holds
          ⟨"equal_degree_" ++ i,
           fun sel => outLhs (create_edge_variables events H dur)
               (events.map Event.id ++ [DUMMY_EVENT_ID]) i sel
             - inLhs (create_edge_variables events H dur)
               (events.map Event.id ++ [DUMMY_EVENT_ID]) i sel, .eq, 0⟩ sel := by
        refine hsel _ (Or.inl ?_)
        simp only [add_tour_constraints, List.mem_append, List.mem_flatMap,
          List.mem_map]
        exact Or.inr ⟨i, hi, rfl⟩
      simp only [LinConstraint.holds] at h0 ⊢
      rw [outLhs_restrict hsub, inLhs_restrict hsub]
      exact h0
  · simp only [add_opponent_constraints, List.mem_map] at hc
    obtain ⟨team, hteam, hct⟩ := hc
    subst hct
    have h0 : LinConstraint.holds
        ⟨"opponent_" ++ team.id,
         oppLhs events (create_edge_variables events H dur) mm team,
         .ge, 1⟩ sel := by
      refine hsel _ (Or.inr ?_)
      simp only [add_opponent_constraints, List.mem_map]
      exact ⟨team, hteam, rfl⟩
    simp only [LinConstraint.holds] at h0 ⊢
    rw [oppLhs_restrict hsub hdum]
    exact h0

/-- Closed witness for C3 at two concrete events and caps 8 <= 24. -/
theorem driving_hours_monotonicity_witness :
    available_driving_time ⟨"1", 0, ⟨"A", "10"⟩, ⟨"B", "11"⟩⟩
        ⟨"2", 2880, ⟨"C", "12"⟩, ⟨"D", "13"⟩⟩ 8 180
      ≤ available_driving_time ⟨"1", 0, ⟨"A", "10"⟩, ⟨"B", "11"⟩⟩
        ⟨"2", 2880, ⟨"C", "12"⟩, ⟨"D", "13"⟩⟩ 24 180 :=
  (driving_hours_monotonicity [] (fun _ _ => 0) [] [] 180 (by decide)).1
    ⟨"1", 0, ⟨"A", "10"⟩, ⟨"B", "11"⟩⟩ ⟨"2", 2880, ⟨"C", "12"⟩, ⟨"D", "13"⟩⟩

/-! ### Path extraction (driver.py, format_lp_output)

The successor dict is built from the variables assigned (within tolerance) 1
whose names start with x_; such a variable is exactly a selected edge key, so
the input is modelled as the list of selected keys.  Dict insertion
overwrites an existing key.  The while loop is modelled with fuel
selected.length + 1: a run of the Python loop that returns visits each dict
key at most once (a repeated key would repeat forever), so the fuel never
runs out on a terminating walk; a missing successor (KeyError) and a
dummy-less cycle (non-termination) both yield none. -/

def dictInsert : List (String × String) → String → String →
    List (String × String)
  | [], k, v => [(k, v)]
  | (k', v') :: rest, k, v =>
    if k' = k then (k, v) :: rest else (k', v') :: dictInsert rest k v

def buildNextEvent (selected : List (String × String)) :
    List (String × String) :=
  selected.foldl (fun m p => dictInsert m p.1 p.2) []

def followPath (next_event : List (String × String)) :
    ℕ → String → Option (List String)
  | 0, _ => none
  | fuel + 1, current =>
    match assocLookup next_event current with
    | none => none
    | some next_id =>
      if next_id = DUMMY_EVENT_ID then some []
      else (followPath next_event fuel next_id).map fun path => next_id :: path

/-- format_lp_output: objective line, driving-hours line, then the walked
event ids one per line. -/
def format_lp_output (objective : Int) (driving_hours_per_day : ℕ)
    (selected : List (String × String)) : Option String :=
  (followPath (buildNextEvent selected) (selected.length + 1)
    DUMMY_EVENT_ID).map
    fun path => toString objective ++ "\n" ++ toString driving_hours_per_day
      ++ "\n" ++ String.intercalate "\n" path

lemma assocLookup_mem {α : Type} {m : List (String × α)} {k : String} {v : α}
    (h : assocLookup m k = some v) : (k, v) ∈ m := by
  induction m with
  | nil => exact absurd h (by simp [assocLookup])
  | cons head rest ih =>
    obtain ⟨k', v'⟩ := head
    by_cases hk : k = k'
    · subst hk
      simp only [assocLookup, if_true, eq_self_iff_true, Option.some.injEq,
        ite_true] at h
      rw [← h]
      exact List.mem_cons_self _ _
    · simp only [assocLookup, if_neg hk] at h
      exact List.mem_cons_of_mem _ (ih h)

lemma dictInsert_mem {m : List (String × String)} {k v : String}
    {p : String × String} (h : p ∈ dictInsert m k v) : p ∈ m ∨ p = (k, v) := by
  induction m with
  | nil =>
    simp only [dictInsert, List.mem_singleton] at h
    exact Or.inr h
  | cons head rest ih =>
    obtain ⟨k', v'⟩ := head
    by_cases hk : k' = k
    · rw [dictInsert, if_pos hk] at h
      rcases List.mem_cons.mp h with h | h
      · exact Or.inr h
      · exact Or.inl (List.mem_cons_of_mem _ h)
    · rw [dictInsert, if_neg hk] at h
      rcases List.mem_cons.mp h with h | h
      · exact Or.inl (h ▸ List.mem_cons_self _ _)
      · rcases ih h with h | h
        · exact Or.inl (List.mem_cons_of_mem _ h)
        · exact Or.inr h

lemma buildNextEvent_mem {selected : List (String × String)}
    {p : String × String} (h : p ∈ buildNextEvent selected) : p ∈ selected := by
  have aux : ∀ (l m : List (String × String)) (q : String × String),
      q ∈ l.foldl (fun acc r => dictInsert acc r.1 r.2) m → q ∈ m ∨ q ∈ l := by
    intro l
    induction l with
    | nil => intro m q hq; exact Or.inl hq
    | cons r rest ih =>
      intro m q hq
      rcases ih (dictInsert m r.1 r.2) q hq with hq | hq
      · rcases dictInsert_mem hq with hq | hq
        · exact Or.inl hq
        · exact Or.inr (by rw [hq]; exact List.mem_cons_self _ _)
      · exact Or.inr (List.mem_cons_of_mem _ hq)
  rcases aux selected [] p h with hp | hp
  · exact absurd hp (by simp)
  · exact hp

/-- Soundness of the walk: every visited id is real, consecutive visited ids
are successor-map entries between real ids, and a non-empty walk starts at
the successor of the starting node. -/
lemma followPath_sound {m : List (String × String)} :
    ∀ (fuel : ℕ) (current : String) (path : List String),
      followPath m fuel current = some path →
      (∀ x ∈ path, x ≠ DUMMY_EVENT_ID) ∧
      List.Chain' (fun a b => assocLookup m a = some b
        ∧ a ≠ DUMMY_EVENT_ID ∧ b ≠ DUMMY_EVENT_ID) path ∧
      (∀ x t, path = x :: t → assocLookup m current = some x) := by
  intro fuel
  induction fuel with
  | zero =>
    intro current path h
    exact absurd h (by simp [followPath])
  | succ fuel ih =>
    intro current path h
    cases hlk : assocLookup m current with
    | none =>
      simp only [followPath, hlk] at h
      exact absurd h (by simp)
    | some next_id =>
      simp only [followPath, hlk] at h
      by_cases hdum : next_id = DUMMY_EVENT_ID
      · rw [if_pos hdum] at h
        simp only [Option.some.injEq] at h
        subst h
        exact ⟨by simp, List.chain'_nil, by intro x t hcontra; simp at hcontra⟩
      · rw [if_neg hdum, Option.map_eq_some'] at h
        obtain ⟨rest, hrest, hpath⟩ := h
        obtain ⟨hreal, hchain, hhead⟩ := ih next_id rest hrest
        subst hpath
        refine ⟨?_, ?_, ?_⟩
        · intro x hx
          rcases List.mem_cons.mp hx with hx | hx
          · exact hx ▸ hdum
          · exact hreal x hx
        · rw [List.chain'_cons']
          refine ⟨?_, hchain⟩
          intro y hy
          cases rest with
          | nil => simp at hy
          | cons r t =>
            simp only [List.head?_cons, Option.mem_def, Option.some.injEq] at hy
            cases hy
            exact ⟨hhead _ t rfl, hdum, hreal _ (List.mem_cons_self _ _)⟩
        · intro x t hpath2
          have hx : next_id = x := (List.cons.injEq .. ▸ hpath2).1
          rw [hx]

/-- C7: when format_lp_output returns a string, that string is the objective
line, then the driving-hours line, then one line per visited event id in the
order the successor walk from the dummy node visits them, and the dummy id
never appears among the visited ids. -/
theorem format_lp_output_spec (objective : Int) (driving_hours_per_day : ℕ)
    (selected : List (String × String)) (output : String)
    (hout : format_lp_output objective driving_hours_per_day selected
      = some output) :
    ∃ path, followPath (buildNextEvent selected) (selected.length + 1)
        DUMMY_EVENT_ID = some path
      ∧ output = toString objective ++ "\n" ++ toString driving_hours_per_day
          ++ "\n" ++ String.intercalate "\n" path
      ∧ DUMMY_EVENT_ID ∉ path := by
  rw [format_lp_output, Option.map_eq_some'] at hout
  obtain ⟨path, hpath, hfmt⟩ := hout
  obtain ⟨hreal, _, _⟩ := followPath_sound _ _ _ hpath
  exact ⟨path, hpath, hfmt.symm, fun hcontra => hreal _ hcontra rfl⟩

/-- Closed witness for C7: a one-event walk. -/
theorem format_lp_output_spec_witness :
    ∃ path, followPath
        (buildNextEvent [(DUMMY_EVENT_ID, "9"), ("9", DUMMY_EVENT_ID)]) 3
        DUMMY_EVENT_ID = some path
      ∧ "7\n10\n9" = toString (7 : Int) ++ "\n" ++ toString (10 : ℕ)
          ++ "\n" ++ String.intercalate "\n" path
      ∧ DUMMY_EVENT_ID ∉ path :=
  format_lp_output_spec 7 10 [(DUMMY_EVENT_ID, "9"), ("9", DUMMY_EVENT_ID)]
    "7\n10\n9" rfl

/-- C6: an itinerary extracted from a selection that only uses existing edge
variables (with a non-negative duration matrix) is chronologically strictly
increasing: consecutive visited events are a created real-real edge, which
exists only from an earlier event to a later one. -/
theorem itinerary_chronological (events : List Event) (max_hours : Int)
    (dur : String → String → Int) (hdur : ∀ i j, 0 ≤ dur i j)
    (selected : List (String × String))
    (hsel : ∀ p ∈ selected, p ∈ create_edge_variables events max_hours dur)
    (objective : Int) (driving_hours_per_day : ℕ) (output : String)
    (hout : format_lp_output objective driving_hours_per_day selected
      = some output) :
    ∃ path, followPath (buildNextEvent selected) (selected.length + 1)
        DUMMY_EVENT_ID = some path
      ∧ List.Chain' (fun a b => ∃ e_a ∈ events, ∃ e_b ∈ events,
          e_a.id = a ∧ e_b.id = b ∧ e_a.time < e_b.time) path := by
  rw [format_lp_output, Option.map_eq_some'] at hout
  obtain ⟨path, hpath, _⟩ := hout
  obtain ⟨_, hchain, _⟩ := followPath_sound _ _ _ hpath
  refine ⟨path, hpath, hchain.imp ?_⟩
  rintro a b ⟨hlk, hda, hdb⟩
  have hmem : (a, b) ∈ create_edge_variables events max_hours dur :=
    hsel _ (buildNextEvent_mem (assocLookup_mem hlk))
  rcases mem_create_edge_variables_iff.mp hmem with ⟨p, hp, hk, hc⟩ | ⟨e, _, hk⟩
  · obtain ⟨hp1, hp2⟩ := mem_of_mem_distinctPairs hp
    have hid1 : p.1.id = a := (congrArg Prod.fst hk).symm
    have hid2 : p.2.id = b := (congrArg Prod.snd hk).symm
    exact ⟨p.1, hp1, p.2, hp2, hid1, hid2,
      time_lt_of_ceil_le_avail (hdur p.1.id p.2.id) hc⟩
  · rcases hk with hk | hk
    · exact absurd (congrArg Prod.fst hk) hda
    · exact absurd (congrArg Prod.snd hk) hdb

/-- Closed witness for C6: a two-event itinerary from a selection inside the
created edge variables. -/
theorem itinerary_chronological_witness :
    ∃ path, followPath (buildNextEvent
        [(DUMMY_EVENT_ID, "1"), ("1", "2"), ("2", DUMMY_EVENT_ID)]) 4
        DUMMY_EVENT_ID = some path
      ∧ List.Chain' (fun a b => ∃ e_a ∈
          [(⟨"1", 0, ⟨"A", "10"⟩, ⟨"B", "11"⟩⟩ : Event),
           ⟨"2", 2880, ⟨"C", "12"⟩, ⟨"D", "13"⟩⟩], ∃ e_b ∈
          [(⟨"1", 0, ⟨"A", "10"⟩, ⟨"B", "11"⟩⟩ : Event),
           ⟨"2", 2880, ⟨"C", "12"⟩, ⟨"D", "13"⟩⟩],
          e_a.id = a ∧ e_b.id = b ∧ e_a.time < e_b.time) path :=
  itinerary_chronological
    [⟨"1", 0, ⟨"A", "10"⟩, ⟨"B", "11"⟩⟩, ⟨"2", 2880, ⟨"C", "12"⟩, ⟨"D", "13"⟩⟩]
    24 (fun _ _ => 0) (fun _ _ => le_refl 0)
    [(DUMMY_EVENT_ID, "1"), ("1", "2"), ("2", DUMMY_EVENT_ID)]
    (by decide) 0 24 "0\n24\n1\n2" rfl

/-! ### Teams of interest (solver_util.py remove_infeasible_teams and the
resolution in driver.py run_solver) -/

/-- remove_infeasible_teams: fixed cross-league exclusion pairs keyed on team
names. -/
def remove_infeasible_teams (teams : List Team) (team_name : String) :
    List Team :=
  if team_name = "Nashville Predators" then
    teams.filter fun t => decide (t.name ≠ "Pittsburgh Penguins")
  else if team_name = "Pittsburgh Penguins" then
    teams.filter fun t => decide (t.name ≠ "Nashville Predators")
  else if team_name = "Orlando Magic" then
    teams.filter fun t => decide (t.name ≠ "Memphis Grizzlies")
  else if team_name = "Memphis Grizzlies" then
    teams.filter fun t => decide (t.name ≠ "Orlando Magic")
  else teams

/-- The events of the focus team's away slate. -/
def relevant_events (events : List Event) (team_id : String) : List Event :=
  events.filter fun e => decide (e.away_team.id = team_id)

/-- The resolved teams of interest of run_solver: home teams of the away
slate intersected with the teams surviving the exclusion pairs.  The Python
set intersection also removes duplicates; dedup changes neither membership
nor which distinct coverage constraints exist, and the interested list is
consumed through a dict keyed by team id. -/
def resolved_teams_of_interest (teams : List Team) (events : List Event)
    (team_id team_name : String) : List Team :=
  ((relevant_events events team_id).map fun e => e.home_team).filter
    fun t => decide (t ∈ remove_infeasible_teams teams team_name)

lemma assocLookup_append {α : Type} (l1 l2 : List (String × α)) (k : String) :
    assocLookup (l1 ++ l2) k
      = match assocLookup l1 k with
        | some v => some v
        | none => assocLookup l2 k := by
  induction l1 with
  | nil => simp [assocLookup]
  | cons head rest ih =>
    obtain ⟨k', v'⟩ := head
    by_cases hk : k = k'
    · subst hk
      simp [assocLookup]
    · simp only [List.cons_append, assocLookup, if_neg hk]
      exact ih

lemma assocLookup_map_row {events : List Event}
    {f : Event → List (String × Int)} {k : String}
    {inner : List (String × Int)}
    (h : assocLookup (events.map fun e => (e.id, f e)) k = some inner) :
    ∃ e ∈ events, e.id = k ∧ inner = f e := by
  induction events with
  | nil => exact absurd h (by simp [assocLookup])
  | cons e rest ih =>
    simp only [List.map_cons] at h
    by_cases hk : k = e.id
    · subst hk
      rw [show assocLookup ((e.id, f e) :: rest.map fun x => (x.id, f x)) e.id
          = some (f e) from by simp [assocLookup]] at h
      injection h with h
      exact ⟨e, List.mem_cons_self _ _, rfl, h.symm⟩
    · rw [show assocLookup ((e.id, f e) :: rest.map fun x => (x.id, f x)) k
          = assocLookup (rest.map fun x => (x.id, f x)) k from by
        simp [assocLookup, hk]] at h
      obtain ⟨e0, he0, hid, hin⟩ := ih h
      exact ⟨e0, List.mem_cons_of_mem _ he0, hid, hin⟩

/-- Rows of the built matchup matrix are either a real event row or the
empty dummy row. -/
lemma build_matchup_matrix_rows {events : List Event} {include_dummy : Bool}
    {k : String} {inner : List (String × Int)}
    (h : assocLookup (build_matchup_matrix events include_dummy) k
      = some inner) :
    (∃ e ∈ events, e.id = k
      ∧ inner = [(e.home_team.id, 1), (e.away_team.id, 1)]) ∨ inner = [] := by
  cases include_dummy with
  | false =>
    simp only [build_matchup_matrix, add_dummy_to_matchup_matrix,
      Bool.false_eq_true, if_false] at h
    exact Or.inl (assocLookup_map_row h)
  | true =>
    simp only [build_matchup_matrix, add_dummy_to_matchup_matrix,
      if_true] at h
    rw [assocLookup_append] at h
    cases hlk : assocLookup
        (events.map fun e =>
          (e.id, [(e.home_team.id, (1 : Int)), (e.away_team.id, 1)])) k with
    | some v =>
      simp only [hlk, Option.some.injEq] at h
      exact Or.inl (h ▸ assocLookup_map_row hlk)
    | none =>
      simp only [hlk, assocLookup] at h
      by_cases hk : k = DUMMY_EVENT_ID
      · rw [if_pos hk, Option.some.injEq] at h
        exact Or.inr h.symm
      · rw [if_neg hk] at h
        exact absurd h (by simp)

lemma matchupGet_nonneg (events : List Event) (include_dummy : Bool)
    (k t : String) :
    0 ≤ matchupGet (build_matchup_matrix events include_dummy) k t := by
  unfold matchupGet
  cases houter : assocLookup (build_matchup_matrix events include_dummy) k with
  | none => exact le_refl 0
  | some inner =>
    rcases build_matchup_matrix_rows houter with ⟨e, _, _, hin⟩ | hin
    · subst hin
      by_cases h1 : t = e.home_team.id
      · simp [assocLookup, h1]
      · by_cases h2 : t = e.away_team.id
        · simp [assocLookup, h1, h2]
        · simp [assocLookup, h1, h2]
    · subst hin
      simp [assocLookup]

lemma matchupGet_participant {events : List Event} {include_dummy : Bool}
    {k t : String}
    (h : matchupGet (build_matchup_matrix events include_dummy) k t ≠ 0) :
    ∃ e ∈ events, e.id = k ∧ (e.home_team.id = t ∨ e.away_team.id = t) := by
  cases houter : assocLookup (build_matchup_matrix events include_dummy) k with
  | none =>
    simp only [matchupGet, houter] at h
    exact absurd rfl h
  | some inner =>
    simp only [matchupGet, houter] at h
    rcases build_matchup_matrix_rows houter with ⟨e, he, hid, hin⟩ | hin
    · subst hin
      by_cases h1 : t = e.home_team.id
      · exact ⟨e, he, hid, Or.inl h1.symm⟩
      · by_cases h2 : t = e.away_team.id
        · exact ⟨e, he, hid, Or.inr h2.symm⟩
        · simp [assocLookup, h1, h2] at h
    · subst hin
      simp [assocLookup] at h

lemma exists_one_le_of_one_le_sum {l : List Int}
    (hpos : ∀ x ∈ l, 0 ≤ x) (hs : 1 ≤ l.sum) : ∃ x ∈ l, 1 ≤ x := by
  induction l with
  | nil => simp at hs
  | cons x rest ih =>
    by_cases hx : 1 ≤ x
    · exact ⟨x, List.mem_cons_self _ _, hx⟩
    · have hx0 : x = 0 := by
        have := hpos x (List.mem_cons_self _ _)
        omega
      rw [List.sum_cons, hx0] at hs
      obtain ⟨y, hy, h1y⟩ := ih (fun y hy => hpos y (List.mem_cons_of_mem _ hy))
        (by omega)
      exact ⟨y, List.mem_cons_of_mem _ hy, h1y⟩

/-- C8: for every resolved team of interest, the formulated model contains
that team's coverage constraint (selected edges into events where the team
participates, dummy-origin edges included, sum at least one), and any
assignment satisfying the model therefore selects an edge whose destination
event has that team as home or away participant. -/
theorem coverage_constraints (teams : List Team) (events : List Event)
    (team_id team_name : String) (max_hours : Int)
    (dur : String → String → Int) (t : Team)
    (ht : t ∈ resolved_teams_of_interest teams events team_id team_name) :
    ((⟨"opponent_" ++ t.id,
      oppLhs (relevant_events events team_id)
        (create_edge_variables (relevant_events events team_id) max_hours dur)
        (build_matchup_matrix (relevant_events events team_id) true) t,
      .ge, 1⟩ : LinConstraint)
      ∈ (formulate (relevant_events events team_id) max_hours dur
          (build_matchup_matrix (relevant_events events team_id) true)
          (resolved_teams_of_interest teams events team_id team_name)).constraints)
    ∧ ∀ sel, (∀ c ∈ (formulate (relevant_events events team_id) max_hours dur
          (build_matchup_matrix (relevant_events events team_id) true)
          (resolved_teams_of_interest teams events team_id team_name)).constraints,
        c.holds sel) →
      ∃ a b, (a, b) ∈ create_edge_variables (relevant_events events team_id)
          max_hours dur
        ∧ sel (a, b) = true
        ∧ ∃ e ∈ relevant_events events team_id, e.id = b
            ∧ (e.home_team.id = t.id ∨ e.away_team.id = t.id) := by
  have hmem : (⟨"opponent_" ++ t.id,
      oppLhs (relevant_events events team_id)
        (create_edge_variables (relevant_events events team_id) max_hours dur)
        (build_matchup_matrix (relevant_events events team_id) true) t,
      .ge, 1⟩ : LinConstraint)
      ∈ (formulate (relevant_events events team_id) max_hours dur
          (build_matchup_matrix (relevant_events events team_id) true)
          (resolved_teams_of_interest teams events team_id team_name)).constraints := by
    simp only [formulate, List.mem_append]
    refine Or.inr ?_
    simp only [add_opponent_constraints, List.mem_map]
    exact ⟨t, ht, rfl⟩
  refine ⟨hmem, ?_⟩
  intro sel hsel
  have hcon := hsel _ hmem
  simp only [LinConstraint.holds, ge_iff_le] at hcon
  rw [oppLhs] at hcon
  have hApos : ∀ x ∈ (distinctPairs (relevant_events events team_id)).map fun p =>
      if (p.1.id, p.2.id) ∈ create_edge_variables (relevant_events events team_id)
          max_hours dur then
        (if sel (p.1.id, p.2.id) then 1 else 0)
          * matchupGet (build_matchup_matrix (relevant_events events team_id) true)
              p.2.id t.id
      else 0, (0 : Int) ≤ x := by
    intro x hx
    obtain ⟨p, _, hfx⟩ := List.mem_map.mp hx
    rw [← hfx]
    by_cases hk : (p.1.id, p.2.id) ∈ create_edge_variables
        (relevant_events events team_id) max_hours dur
    · rw [if_pos hk]
      refine mul_nonneg ?_
        (matchupGet_nonneg (relevant_events events team_id) true p.2.id t.id)
      by_cases hs : sel (p.1.id, p.2.id) <;> simp [hs]
    · rw [if_neg hk]
  have hBpos : ∀ x ∈ (relevant_events events team_id).map fun e =>
      (if sel (DUMMY_EVENT_ID, e.id) then 1 else 0)
        * matchupGet (build_matchup_matrix (relevant_events events team_id) true)
            e.id t.id, (0 : Int) ≤ x := by
    intro x hx
    obtain ⟨e, _, hfx⟩ := List.mem_map.mp hx
    rw [← hfx]
    refine mul_nonneg ?_
      (matchupGet_nonneg (relevant_events events team_id) true e.id t.id)
    by_cases hs : sel (DUMMY_EVENT_ID, e.id) <;> simp [hs]
  have hsplit : 1 ≤ ((distinctPairs (relevant_events events team_id)).map fun p =>
        if (p.1.id, p.2.id) ∈ create_edge_variables
            (relevant_events events team_id) max_hours dur then
          (if sel (p.1.id, p.2.id) then 1 else 0)
            * matchupGet (build_matchup_matrix (relevant_events events team_id) true)
                p.2.id t.id
        else 0).sum
      ∨ 1 ≤ ((relevant_events events team_id).map fun e =>
        (if sel (DUMMY_EVENT_ID, e.id) then 1 else 0)
          * matchupGet (build_matchup_matrix (relevant_events events team_id) true)
              e.id t.id).sum := by
    have hA := List.sum_nonneg hApos
    have hB := List.sum_nonneg hBpos
    omega
  rcases hsplit with hA | hB
  · obtain ⟨x, hx, h1x⟩ := exists_one_le_of_one_le_sum hApos hA
    obtain ⟨p, hp, hfx⟩ := List.mem_map.mp hx
    rw [← hfx] at h1x
    by_cases hk : (p.1.id, p.2.id) ∈ create_edge_variables
        (relevant_events events team_id) max_hours dur
    · rw [if_pos hk] at h1x
      by_cases hs : sel (p.1.id, p.2.id)
      · rw [if_pos hs, one_mul] at h1x
        obtain ⟨e, he, hid, hpart⟩ :=
          @matchupGet_participant (relevant_events events team_id) true
            p.2.id t.id (by omega)
        exact ⟨p.1.id, p.2.id, hk, hs, e, he, hid, hpart⟩
      · rw [if_neg hs, zero_mul] at h1x
        omega
    · rw [if_neg hk] at h1x
      omega
  · obtain ⟨x, hx, h1x⟩ := exists_one_le_of_one_le_sum hBpos hB
    obtain ⟨e, he, hfx⟩ := List.mem_map.mp hx
    rw [← hfx] at h1x
    by_cases hs : sel (DUMMY_EVENT_ID, e.id)
    · rw [if_pos hs, one_mul] at h1x
      obtain ⟨e0, he0, hid, hpart⟩ :=
        @matchupGet_participant (relevant_events events team_id) true
          e.id t.id (by omega)
      refine ⟨DUMMY_EVENT_ID, e.id, ?_, hs, e0, he0, hid, hpart⟩
      exact mem_create_edge_variables_iff.mpr (Or.inr ⟨e, he, Or.inl rfl⟩)
    · rw [if_neg hs, zero_mul] at h1x
      omega

/-- Closed witness for C8: one away game of team 10 hosted by team 12; the
coverage constraint of team 12 is in the formulated model. -/
theorem coverage_constraints_witness :
    (⟨"opponent_" ++ (⟨"Beta", "12"⟩ : Team).id,
      oppLhs (relevant_events [⟨"1", 0, ⟨"Beta", "12"⟩, ⟨"Alpha", "10"⟩⟩] "10")
        (create_edge_variables
          (relevant_events [⟨"1", 0, ⟨"Beta", "12"⟩, ⟨"Alpha", "10"⟩⟩] "10")
          24 fun _ _ => 0)
        (build_matchup_matrix
          (relevant_events [⟨"1", 0, ⟨"Beta", "12"⟩, ⟨"Alpha", "10"⟩⟩] "10")
          true)
        ⟨"Beta", "12"⟩, .ge, 1⟩ : LinConstraint)
      ∈ (formulate
          (relevant_events [⟨"1", 0, ⟨"Beta", "12"⟩, ⟨"Alpha", "10"⟩⟩] "10")
          24 (fun _ _ => 0)
          (build_matchup_matrix
            (relevant_events [⟨"1", 0, ⟨"Beta", "12"⟩, ⟨"Alpha", "10"⟩⟩] "10")
            true)
          (resolved_teams_of_interest [⟨"Alpha", "10"⟩, ⟨"Beta", "12"⟩]
            [⟨"1", 0, ⟨"Beta", "12"⟩, ⟨"Alpha", "10"⟩⟩] "10"
            "Alpha")).constraints :=
  (coverage_constraints [⟨"Alpha", "10"⟩, ⟨"Beta", "12"⟩]
    [⟨"1", 0, ⟨"Beta", "12"⟩, ⟨"Alpha", "10"⟩⟩] "10" "Alpha" 24
    (fun _ _ => 0) ⟨"Beta", "12"⟩ (by decide)).1

/-! ### Orchestration (driver.py, run_solver)

run_solver performs I/O and calls the external MILP solver; the solver is
modelled by an oracle carrying the status of the trip-duration model per
probed cap and the solved 0/1 assignments of the three solve calls (the
interested-teams resolution that shapes those models is
resolved_teams_of_interest above).  File output is modelled by the returned
list of (file name, contents); a raised exception is Except.error: the
RuntimeError of an exhausted binary search is caught and re-raised with the
team name, while a KeyError escaping format_lp_output propagates as is.  The
objective value printed on the first output line is the objective of the
solved assignment; the driving cost tables enter as finished event-pair
lookups whose dummy-augmented entries cost zero. -/

structure SolverOracle where
  status : ℕ → Bool
  assign : ℕ → (String × String) → Bool
  assignDistance : ℕ → (String × String) → Bool
  assignDuration : ℕ → (String × String) → Bool

/-- Objective of solve: sum of (cost + 1) over selected edge variables. -/
def objectiveValue (cost : (String × String) → Int)
    (keys : List (String × String)) (sel : (String × String) → Bool) : Int :=
  (keys.map fun k => if sel k then cost k + 1 else 0).sum

/-- team_name.replace(" ", "_").lower() for the single-character pattern the
driver uses, written character by character so it evaluates by reduction. -/
def fsFormatName (s : String) : String :=
  String.mk (s.data.map fun c => if c = ' ' then '_' else c.toLower)

def zeroOnDummy (route : String → String → Int) (k : String × String) : Int :=
  if k.1 = DUMMY_EVENT_ID ∨ k.2 = DUMMY_EVENT_ID then 0 else route k.1 k.2

/-- run_solver: select the away slate, build the matrices, binary-search the
cap on the trip-duration model, then solve the two driving objectives at the
found cap, formatting one output file per objective. -/
def run_solver (oracle : SolverOracle) (teams : List Team)
    (events : List Event) (duration_lookup distance_lookup :
      String → String → Int) (team_id : String) :
    Except String (List (String × String)) :=
  let relevant := relevant_events events team_id
  let trip_duration_matrix := build_trip_duration_matrix relevant true
  match teams.find? fun tm => decide (tm.id = team_id) with
  | none => Except.error "StopIteration"
  | some focus =>
    let team_name := fsFormatName focus.name
    match binary_search_driving_hours oracle.status with
    | none => Except.error ("No feasible trip found for team " ++ team_name)
    | some driving_hours =>
      let keys := create_edge_variables relevant (driving_hours : Int)
        duration_lookup
      match format_lp_output
          (objectiveValue (fun k => (matLookup trip_duration_matrix k).getD 0)
            keys (oracle.assign driving_hours))
          driving_hours (keys.filter (oracle.assign driving_hours)) with
      | none => Except.error "KeyError"
      | some trip_duration_out =>
        match format_lp_output
            (objectiveValue (zeroOnDummy distance_lookup) keys
              (oracle.assignDistance driving_hours))
            driving_hours (keys.filter (oracle.assignDistance driving_hours)) with
        | none => Except.error "KeyError"
        | some driving_distance_out =>
          match format_lp_output
              (objectiveValue (zeroOnDummy duration_lookup) keys
                (oracle.assignDuration driving_hours))
              driving_hours (keys.filter (oracle.assignDuration driving_hours)) with
          | none => Except.error "KeyError"
          | some driving_duration_out =>
            Except.ok [("trip_duration.txt", trip_duration_out),
              ("driving_distance.txt", driving_distance_out),
              ("driving_duration.txt", driving_duration_out)]

/-- A model with an empty interested-teams list is always feasible: the
all-zero assignment satisfies every tour constraint and there is no coverage
constraint.  A correct MILP solver therefore reports optimal at every cap for
a team with no coverable opponents. -/
lemma empty_interest_model_feasible (events : List Event) (h : Int)
    (dur : String → String → Int) (mm : MatchupMatrix) :
    modelFeasible (formulate events h dur mm []) := by
  have hzero : ∀ (l : List String),
      (l.map fun _ => (0 : Int)).sum = 0 := by
    intro l
    induction l with
    | nil => rfl
    | cons a t ih => simp [ih]
  refine ⟨fun _ => false, ?_⟩
  intro c hc
  simp only [formulate, List.mem_append] at hc
  have hout : ∀ i, outLhs (create_edge_variables events h dur)
      (events.map Event.id ++ [DUMMY_EVENT_ID]) i (fun _ => false) = 0 := by
    intro i
    rw [outLhs, show ((events.map Event.id ++ [DUMMY_EVENT_ID]).map fun j =>
        edgeVal (create_edge_variables events h dur) (fun _ => false) (i, j))
        = (events.map Event.id ++ [DUMMY_EVENT_ID]).map fun _ => (0 : Int) from
      List.map_congr_left fun j _ => by simp [edgeVal]]
    exact hzero _
  have hin : ∀ i, inLhs (create_edge_variables events h dur)
      (events.map Event.id ++ [DUMMY_EVENT_ID]) i (fun _ => false) = 0 := by
    intro i
    rw [inLhs, show ((events.map Event.id ++ [DUMMY_EVENT_ID]).map fun j =>
        edgeVal (create_edge_variables events h dur) (fun _ => false) (j, i))
        = (events.map Event.id ++ [DUMMY_EVENT_ID]).map fun _ => (0 : Int) from
      List.map_congr_left fun j _ => by simp [edgeVal]]
    exact hzero _
  rcases hc with hc | hc
  · simp only [add_tour_constraints, List.mem_append, List.mem_flatMap,
      List.mem_map] at hc
    rcases hc with ⟨i, _, hci⟩ | ⟨i, _, hci⟩
    · rcases List.mem_cons.mp hci with hce | hce
      · subst hce
        simp only [LinConstraint.holds, hout]
        omega
      · have hce2 := List.mem_singleton.mp hce
        subst hce2
        simp only [LinConstraint.holds, hin]
        omega
    · subst hci
      simp only [LinConstraint.holds, hout, hin]
      omega
  · simp [add_opponent_constraints] at hc

/-- C4, behavior at the failing input: a team whose away slate is empty has
no coverable opponents, so the trip-duration model has no coverage
constraint and is feasible at every cap (third conjunct); the binary search
then succeeds with cap 1 (second conjunct) instead of reporting
infeasibility, and run_solver terminates with the propagated KeyError of
format_lp_output walking an empty successor map (first conjunct), which is
not the per-team infeasibility error (fourth conjunct).  With an oracle that
never reports optimal, the infeasibility error does carry the team identity
(fifth conjunct). -/
theorem run_solver_zero_opponents_bug :
    run_solver ⟨fun _ => true, fun _ _ => false, fun _ _ => false,
        fun _ _ => false⟩ [⟨"Testers", "1"⟩] [] (fun _ _ => 0) (fun _ _ => 0)
        "1" = Except.error "KeyError"
    ∧ binary_search_driving_hours (fun _ => true) = some 1
    ∧ (∀ (h : Int) (dur : String → String → Int) (mm : MatchupMatrix),
        modelFeasible (formulate [] h dur mm []))
    ∧ run_solver ⟨fun _ => true, fun _ _ => false, fun _ _ => false,
        fun _ _ => false⟩ [⟨"Testers", "1"⟩] [] (fun _ _ => 0) (fun _ _ => 0)
        "1" ≠ Except.error "No feasible trip found for team testers"
    ∧ run_solver ⟨fun _ => false, fun _ _ => false, fun _ _ => false,
        fun _ _ => false⟩ [⟨"Testers", "1"⟩] [] (fun _ _ => 0) (fun _ _ => 0)
        "1" = Except.error "No feasible trip found for team testers" := by
  refine ⟨rfl, by decide, fun h dur mm =>
    empty_interest_model_feasible [] h dur mm, ?_, rfl⟩
  intro hcontra
  rw [show run_solver ⟨fun _ => true, fun _ _ => false, fun _ _ => false,
      fun _ _ => false⟩ [⟨"Testers", "1"⟩] [] (fun _ _ => 0) (fun _ _ => 0)
      "1" = Except.error "KeyError" from rfl] at hcontra
  injection hcontra with hmsg
  exact absurd hmsg (by decide)

end TripSolver
